import Mathlib

/-!
Verification of the mutation_rate_calculator repository.

The embedding covers `fill_matrix` and `trace_matrix` from
`mut_calc/num.py` and `compare_to_reference` from `mut_calc/metrics.py`.
The scoring matrix is a total function `Nat → Nat → Int`; the in-place
numpy writes of the Python code become functional updates (`updM`)
folded over the same index ranges the Python `for` loops traverse.
-/

/-- A scoring matrix: row index, column index, stored score. -/
abbrev Mat : Type := Nat → Nat → Int

/-- Functional update of one matrix cell, modelling `matrix[i, j] = v`. -/
def updM (M : Mat) (i j : Nat) (v : Int) : Mat :=
  fun i' j' => if i' = i ∧ j' = j then v else M i' j'

/-- The zero-initialized matrix `np.zeros(...)` the caller hands to the filler. -/
def zeroMat : Mat := fun _ _ => 0

/-- One iteration of the first boundary loop of `fill_matrix`:
`matrix[i, 0] = matrix[i - 1, 0] + indel`. -/
def colStep (indel : Int) (A : Mat) (i : Nat) : Mat :=
  updM A i 0 (A (i - 1) 0 + indel)

/-- The first boundary loop of `fill_matrix`: `for i in range(1, rows)`. -/
def colInit (indel : Int) (M : Mat) (k : Nat) : Mat :=
  (List.range' 1 k).foldl (colStep indel) M

/-- One iteration of the second boundary loop of `fill_matrix`:
`matrix[0, j] = matrix[0, j - 1] + indel`. -/
def rowStep (indel : Int) (A : Mat) (j : Nat) : Mat :=
  updM A 0 j (A 0 (j - 1) + indel)

/-- The second boundary loop of `fill_matrix`: `for j in range(1, cols)`. -/
def rowInit (indel : Int) (M : Mat) (k : Nat) : Mat :=
  (List.range' 1 k).foldl (rowStep indel) M

/-- The score written into cell (i, j) by the body of the nested fill loop:
diagonal score (match or mismatch on the compared characters), up score,
left score, and their maximum `max(score_diagonal, score_up, score_left)`. -/
def cellScore (s1 s2 : List Char) (mtch mism indel : Int) (B : Mat) (i j : Nat) : Int :=
  let scoreDiagonal :=
    if s2.getD (i - 1) 'X' = s1.getD (j - 1) 'X' then B (i - 1) (j - 1) + mtch
    else B (i - 1) (j - 1) + mism
  let scoreUp := B (i - 1) j + indel
  let scoreLeft := B i (j - 1) + indel
  max (max scoreDiagonal scoreUp) scoreLeft

/-- One write of the nested fill loop: `matrix[i, j] = max_value`. -/
def fillStep (s1 s2 : List Char) (mtch mism indel : Int) (i : Nat) (B : Mat) (j : Nat) : Mat :=
  updM B i j (cellScore s1 s2 mtch mism indel B i j)

/-- The inner fill loop of `fill_matrix`: `for j in range(1, cols)` at a fixed row i. -/
def fillRow (s1 s2 : List Char) (mtch mism indel : Int) (A : Mat) (i kc : Nat) : Mat :=
  (List.range' 1 kc).foldl (fillStep s1 s2 mtch mism indel i) A

/-- The outer fill loop of `fill_matrix`: `for i in range(1, rows)`. -/
def mainFill (s1 s2 : List Char) (mtch mism indel : Int) (M : Mat) (kr kc : Nat) : Mat :=
  (List.range' 1 kr).foldl (fun A i => fillRow s1 s2 mtch mism indel A i kc) M

/-- Embedding of `fill_matrix` from `mut_calc/num.py`: both boundary loops followed by the
row-major nested fill loop, over a matrix of shape `rows × cols`. -/
def fill_matrix (M : Mat) (rows cols : Nat) (s1 s2 : List Char)
    (mtch mism indel : Int) : Mat :=
  mainFill s1 s2 mtch mism indel
    (rowInit indel (colInit indel M (rows - 1)) (cols - 1)) (rows - 1) (cols - 1)

/-- The Needleman–Wunsch recurrence, written as a recursive function: the
value the spec says cell (i, j) must carry. Used as the reference point the
imperative fill is proved equal to. -/
def nwCell (s1 s2 : List Char) (mtch mism indel : Int) : Nat → Nat → Int
  | 0, 0 => 0
  | i + 1, 0 => nwCell s1 s2 mtch mism indel i 0 + indel
  | 0, j + 1 => nwCell s1 s2 mtch mism indel 0 j + indel
  | i + 1, j + 1 =>
    let scoreDiagonal :=
      if s2.getD i 'X' = s1.getD j 'X' then nwCell s1 s2 mtch mism indel i j + mtch
      else nwCell s1 s2 mtch mism indel i j + mism
    let scoreUp := nwCell s1 s2 mtch mism indel i (j + 1) + indel
    let scoreLeft := nwCell s1 s2 mtch mism indel (i + 1) j + indel
    max (max scoreDiagonal scoreUp) scoreLeft
  termination_by i j => (i, j)

/-- The traceback loop of `trace_matrix` from `mut_calc/num.py`, with the
cursor `(i, j)` made explicit and the `while i > 0 or j > 0` loop rendered
as structural recursion on a fuel argument (the loop runs at most `i + j`
iterations, one unit of fuel per iteration).  The collected emissions are
produced end-to-start and reversed on return; here each step appends its
emission after the recursive result, which yields the same reversed lists.
Sequence indexing uses `Option` so that an out-of-range access (a numpy
`IndexError`) is `none`; the hard-coded comparisons `current == diag + 1`,
`current == diag - 1` and `current == left - 1` are taken verbatim from the
source. -/
def traceGo (M : Mat) (s1 s2 : List Char) : Nat → Nat → Nat → Option (List Char × List Char)
  | _, 0, 0 => some ([], [])
  | 0, _, _ => none
  | fuel + 1, 0, j + 1 =>
    match s1[j]?, traceGo M s1 s2 fuel 0 j with
    | some c1, some (a1, a2) => some (a1 ++ [c1], a2 ++ ['-'])
    | _, _ => none
  | fuel + 1, i + 1, 0 =>
    match s2[i]?, traceGo M s1 s2 fuel i 0 with
    | some c2, some (a1, a2) => some (a1 ++ ['-'], a2 ++ [c2])
    | _, _ => none
  | fuel + 1, i + 1, j + 1 =>
    let current := M (i + 1) (j + 1)
    let diag := M i j
    let left := M (i + 1) j
    if current = diag + 1 ∨ current = diag - 1 then
      match s1[j]?, s2[i]?, traceGo M s1 s2 fuel i j with
      | some c1, some c2, some (a1, a2) => some (a1 ++ [c1], a2 ++ [c2])
      | _, _, _ => none
    else if current = left - 1 then
      match s1[j]?, traceGo M s1 s2 fuel (i + 1) j with
      | some c1, some (a1, a2) => some (a1 ++ [c1], a2 ++ ['-'])
      | _, _ => none
    else
      match s2[i]?, traceGo M s1 s2 fuel i (j + 1) with
      | some c2, some (a1, a2) => some (a1 ++ ['-'], a2 ++ [c2])
      | _, _ => none

/-- Embedding of `trace_matrix` from `mut_calc/num.py`: run the traceback loop starting
from the bottom-right corner `(rows - 1, cols - 1)` of the matrix. -/
def trace_matrix (M : Mat) (rows cols : Nat) (s1 s2 : List Char) :
    Option (List Char × List Char) :=
  traceGo M s1 s2 ((rows - 1) + (cols - 1)) (rows - 1) (cols - 1)

/-- Fill then trace, with the matrix shape `(len(seq2)+1) × (len(seq1)+1)`
the surrounding code allocates via `np.zeros`. -/
def align (s1 s2 : List Char) (mtch mism indel : Int) : Option (List Char × List Char) :=
  trace_matrix (fill_matrix zeroMat (s2.length + 1) (s1.length + 1) s1 s2 mtch mism indel)
    (s2.length + 1) (s1.length + 1) s1 s2

/-- Remove every gap marker from an aligned sequence. -/
def stripGaps (l : List Char) : List Char := l.filter (fun ch => ch != '-')

/-- The loop state of the `while` loop in `trace_matrix`: the cursor and the
two emission lists, with the cursor kept as signed integers as in Python.
Used only for the termination analysis of the loop. -/
structure TraceState where
  i : Int
  j : Int
  aligned1 : List Char
  aligned2 : List Char

/-- One iteration of the `while i > 0 or j > 0` loop of `trace_matrix`,
as a partial step function: `none` exactly when the loop guard fails.
Branch structure and comparisons are those of the source; sequence reads
use a default character since only the cursor dynamics matter here. -/
def traceStep (M : Int → Int → Int) (s1 s2 : List Char) (st : TraceState) :
    Option TraceState :=
  if st.i > 0 ∨ st.j > 0 then
    if st.i = 0 then
      some ⟨st.i, st.j - 1, st.aligned1 ++ [s1.getD (st.j - 1).toNat 'X'],
        st.aligned2 ++ ['-']⟩
    else if st.j = 0 then
      some ⟨st.i - 1, st.j, st.aligned1 ++ ['-'],
        st.aligned2 ++ [s2.getD (st.i - 1).toNat 'X']⟩
    else if M st.i st.j = M (st.i - 1) (st.j - 1) + 1 ∨
        M st.i st.j = M (st.i - 1) (st.j - 1) - 1 then
      some ⟨st.i - 1, st.j - 1, st.aligned1 ++ [s1.getD (st.j - 1).toNat 'X'],
        st.aligned2 ++ [s2.getD (st.i - 1).toNat 'X']⟩
    else if M st.i st.j = M st.i (st.j - 1) - 1 then
      some ⟨st.i, st.j - 1, st.aligned1 ++ [s1.getD (st.j - 1).toNat 'X'],
        st.aligned2 ++ ['-']⟩
    else
      some ⟨st.i - 1, st.j, st.aligned1 ++ ['-'],
        st.aligned2 ++ [s2.getD (st.i - 1).toNat 'X']⟩
  else none

/-- Round the fraction `n / d` (with `d > 0`) to the nearest integer, ties
to even — the rounding of Python's builtin `round`.  Stated on numerator and
denominator so that the definition evaluates by kernel reduction. -/
def roundHalfEvenInt (n : ℤ) (d : ℕ) : ℤ :=
  let q := Int.fdiv n d
  let r := n - q * d
  if 2 * r < d then q
  else if (d : ℤ) < 2 * r then q + 1
  else if q % 2 = 0 then q else q + 1

/-- Python `round(mismatches / compared, 6)`: the exact rational
`mismatches / compared` rounded at the sixth decimal digit, half to even.
The binary floating-point division of the source is modelled as exact
rational arithmetic. -/
def round6 (mismatches compared : ℕ) : ℚ :=
  mkRat (roundHalfEvenInt (mismatches * 1000000) compared) 1000000

/-- One iteration of the `for a, b in zip(seq, ref)` loop of
`compare_to_reference`: skip the position if either side is a gap, else
count it as compared and count a mismatch when the characters differ. -/
def compareStep (cm : Nat × Nat) (p : Char × Char) : Nat × Nat :=
  if p.1 = '-' ∨ p.2 = '-' then cm
  else (cm.1 + 1, if p.1 ≠ p.2 then cm.2 + 1 else cm.2)

/-- The per-sequence body of `compare_to_reference`: length, the two
counters accumulated over `zip(seq, ref)`, and the rounded mutation rate
(`0.0` when no site was compared). -/
def compareOne (seq ref : List Char) : Nat × Nat × Nat × ℚ :=
  let cm := (seq.zip ref).foldl compareStep (0, 0)
  (seq.length, cm.1, cm.2, if cm.1 = 0 then 0 else round6 cm.2 cm.1)

/-- Embedding of `compare_to_reference` from `mut_calc/metrics.py`.  The Python dict is
modelled as an insertion-ordered association list; the `KeyError` raised
when the reference id is absent is modelled as `none`. -/
def compare_to_reference (seqs : List (String × List Char)) (ref_id : String) :
    Option (List (String × (Nat × Nat × Nat × ℚ))) :=
  match seqs.lookup ref_id with
  | none => none
  | some ref => some (seqs.map (fun p => (p.1, compareOne p.2 ref)))

/-- Spec-side count of compared sites: positions where neither the
candidate nor the reference has a gap marker. -/
def comparedSites (seq ref : List Char) : Nat :=
  (seq.zip ref).countP (fun p => p.1 != '-' && p.2 != '-')

/-- Spec-side count of mismatches among compared sites. -/
def mismatchSites (seq ref : List Char) : Nat :=
  (seq.zip ref).countP (fun p => p.1 != '-' && p.2 != '-' && p.1 != p.2)

theorem updM_eq (M : Mat) (i j : Nat) (v : Int) : updM M i j v i j = v := by
  simp [updM]

theorem updM_ne (M : Mat) (i j : Nat) (v : Int) (i' j' : Nat)
    (h : ¬(i' = i ∧ j' = j)) : updM M i j v i' j' = M i' j' := by
  simp only [updM, if_neg h]

theorem nwCell_col (s1 s2 : List Char) (mtch mism indel : Int) :
    ∀ i : Nat, nwCell s1 s2 mtch mism indel i 0 = i * indel := by
  intro i
  induction i with
  | zero => simp [nwCell]
  | succ i ih =>
    rw [nwCell, ih]
    push_cast
    ring

theorem nwCell_row (s1 s2 : List Char) (mtch mism indel : Int) :
    ∀ j : Nat, nwCell s1 s2 mtch mism indel 0 j = j * indel := by
  intro j
  induction j with
  | zero => simp [nwCell]
  | succ j ih =>
    rw [nwCell, ih]
    push_cast
    ring

theorem colInit_get (indel : Int) (M : Mat) (k : Nat) :
    ∀ i' j', colInit indel M k i' j' =
      if j' = 0 ∧ 1 ≤ i' ∧ i' ≤ k then M 0 0 + i' * indel else M i' j' := by
  induction k with
  | zero =>
    intro i' j'
    rw [if_neg (by omega)]
    rfl
  | succ k ih =>
    intro i' j'
    have hc : colInit indel M (k + 1) = colStep indel (colInit indel M k) (1 + k) := by
      rw [colInit, List.range'_1_concat, List.foldl_append]
      rfl
    rw [hc, colStep]
    by_cases h : i' = 1 + k ∧ j' = 0
    · obtain ⟨h1, h2⟩ := h
      subst h1; subst h2
      rw [updM_eq, if_pos (by omega)]
      have hk : 1 + k - 1 = k := by omega
      rw [hk, ih k 0]
      by_cases hk0 : k = 0
      · subst hk0
        rw [if_neg (by omega)]
        push_cast
        ring
      · rw [if_pos (by omega)]
        push_cast
        ring
    · rw [updM_ne _ _ _ _ _ _ h, ih i' j']
      by_cases h2 : j' = 0 ∧ 1 ≤ i' ∧ i' ≤ k
      · rw [if_pos h2, if_pos (by omega)]
      · rw [if_neg h2, if_neg (by omega)]

theorem rowInit_get (indel : Int) (M : Mat) (k : Nat) :
    ∀ i' j', rowInit indel M k i' j' =
      if i' = 0 ∧ 1 ≤ j' ∧ j' ≤ k then M 0 0 + j' * indel else M i' j' := by
  induction k with
  | zero =>
    intro i' j'
    rw [if_neg (by omega)]
    rfl
  | succ k ih =>
    intro i' j'
    have hc : rowInit indel M (k + 1) = rowStep indel (rowInit indel M k) (1 + k) := by
      rw [rowInit, List.range'_1_concat, List.foldl_append]
      rfl
    rw [hc, rowStep]
    by_cases h : i' = 0 ∧ j' = 1 + k
    · obtain ⟨h1, h2⟩ := h
      subst h1; subst h2
      rw [updM_eq, if_pos (by omega)]
      have hk : 1 + k - 1 = k := by omega
      rw [hk, ih 0 k]
      by_cases hk0 : k = 0
      · subst hk0
        rw [if_neg (by omega)]
        push_cast
        ring
      · rw [if_pos (by omega)]
        push_cast
        ring
    · rw [updM_ne _ _ _ _ _ _ h, ih i' j']
      by_cases h2 : i' = 0 ∧ 1 ≤ j' ∧ j' ≤ k
      · rw [if_pos h2, if_pos (by omega)]
      · rw [if_neg h2, if_neg (by omega)]

theorem fillRow_untouched (s1 s2 : List Char) (mtch mism indel : Int) (A : Mat)
    (i : Nat) (k : Nat) :
    ∀ i' j', ¬(i' = i ∧ 1 ≤ j' ∧ j' ≤ k) →
      fillRow s1 s2 mtch mism indel A i k i' j' = A i' j' := by
  induction k with
  | zero =>
    intro i' j' _
    rfl
  | succ k ih =>
    intro i' j' h
    have hc : fillRow s1 s2 mtch mism indel A i (k + 1) =
        fillStep s1 s2 mtch mism indel i (fillRow s1 s2 mtch mism indel A i k) (1 + k) := by
      rw [fillRow, List.range'_1_concat, List.foldl_append]
      rfl
    rw [hc, fillStep, updM_ne _ _ _ _ _ _ (by omega), ih i' j' (by omega)]

theorem fillRow_correct (s1 s2 : List Char) (mtch mism indel : Int) (A : Mat)
    (i : Nat) (hi : 1 ≤ i) (k : Nat)
    (hprev : ∀ j, j ≤ k → A (i - 1) j = nwCell s1 s2 mtch mism indel (i - 1) j)
    (h0 : A i 0 = nwCell s1 s2 mtch mism indel i 0) :
    ∀ j, j ≤ k → fillRow s1 s2 mtch mism indel A i k i j =
      nwCell s1 s2 mtch mism indel i j := by
  induction k with
  | zero =>
    intro j hj
    have hj0 : j = 0 := by omega
    subst hj0
    exact h0
  | succ k ih =>
    intro j hj
    have hc : fillRow s1 s2 mtch mism indel A i (k + 1) =
        fillStep s1 s2 mtch mism indel i (fillRow s1 s2 mtch mism indel A i k) (1 + k) := by
      rw [fillRow, List.range'_1_concat, List.foldl_append]
      rfl
    have hprev' : ∀ j, j ≤ k → A (i - 1) j = nwCell s1 s2 mtch mism indel (i - 1) j := by
      intro j hjk
      exact hprev j (by omega)
    by_cases hjk : j ≤ k
    · rw [hc, fillStep, updM_ne _ _ _ _ _ _ (by omega)]
      exact ih hprev' j hjk
    · have hj1 : j = k + 1 := by omega
      subst hj1
      rw [hc, fillStep]
      have h1k : (1 : Nat) + k = k + 1 := by omega
      rw [h1k, updM_eq]
      obtain ⟨i0, rfl⟩ : ∃ i0, i = i0 + 1 := ⟨i - 1, by omega⟩
      have hd : fillRow s1 s2 mtch mism indel A (i0 + 1) k (i0 + 1 - 1) (k + 1 - 1) =
          nwCell s1 s2 mtch mism indel i0 k := by
        rw [fillRow_untouched _ _ _ _ _ _ _ _ _ _ (by omega)]
        have := hprev k (by omega)
        simpa using this
      have hu : fillRow s1 s2 mtch mism indel A (i0 + 1) k (i0 + 1 - 1) (k + 1) =
          nwCell s1 s2 mtch mism indel i0 (k + 1) := by
        rw [fillRow_untouched _ _ _ _ _ _ _ _ _ _ (by omega)]
        have := hprev (k + 1) (by omega)
        simpa using this
      have hl : fillRow s1 s2 mtch mism indel A (i0 + 1) k (i0 + 1) (k + 1 - 1) =
          nwCell s1 s2 mtch mism indel (i0 + 1) k := by
        have hk1 : k + 1 - 1 = k := by omega
        rw [hk1]
        exact ih hprev' k (by omega)
      rw [cellScore]
      simp only [Nat.add_sub_cancel] at hd hu hl ⊢
      rw [hd, hu, hl, nwCell]

theorem mainFill_correct (s1 s2 : List Char) (mtch mism indel : Int) (B : Mat)
    (kr kc : Nat)
    (hB0 : ∀ j, j ≤ kc → B 0 j = nwCell s1 s2 mtch mism indel 0 j)
    (hBc : ∀ i, i ≤ kr → B i 0 = nwCell s1 s2 mtch mism indel i 0) :
    ∀ r, r ≤ kr →
      (∀ i j, i ≤ r → j ≤ kc →
        mainFill s1 s2 mtch mism indel B r kc i j = nwCell s1 s2 mtch mism indel i j) ∧
      (∀ i j, r < i → mainFill s1 s2 mtch mism indel B r kc i j = B i j) := by
  intro r
  induction r with
  | zero =>
    intro _
    constructor
    · intro i j hi hj
      have hi0 : i = 0 := by omega
      subst hi0
      exact hB0 j hj
    · intro i j _
      rfl
  | succ r ih =>
    intro hr
    obtain ⟨ih1, ih2⟩ := ih (by omega)
    have hc : mainFill s1 s2 mtch mism indel B (r + 1) kc =
        fillRow s1 s2 mtch mism indel (mainFill s1 s2 mtch mism indel B r kc) (1 + r) kc := by
      rw [mainFill, List.range'_1_concat, List.foldl_append]
      rfl
    have h1r : (1 : Nat) + r = r + 1 := by omega
    rw [h1r] at hc
    have hprev : ∀ j, j ≤ kc →
        (mainFill s1 s2 mtch mism indel B r kc) (r + 1 - 1) j =
          nwCell s1 s2 mtch mism indel (r + 1 - 1) j := by
      intro j hj
      simp only [Nat.add_sub_cancel]
      exact ih1 r j (by omega) hj
    have h0 : (mainFill s1 s2 mtch mism indel B r kc) (r + 1) 0 =
        nwCell s1 s2 mtch mism indel (r + 1) 0 := by
      rw [ih2 (r + 1) 0 (by omega)]
      exact hBc (r + 1) hr
    constructor
    · intro i j hi hj
      by_cases hir : i ≤ r
      · rw [hc, fillRow_untouched _ _ _ _ _ _ _ _ _ _ (by omega)]
        exact ih1 i j hir hj
      · have hieq : i = r + 1 := by omega
        subst hieq
        rw [hc]
        exact fillRow_correct s1 s2 mtch mism indel _ (r + 1) (by omega) kc hprev h0 j hj
    · intro i j hij
      rw [hc, fillRow_untouched _ _ _ _ _ _ _ _ _ _ (by omega)]
      exact ih2 i j (by omega)

theorem fill_eq_nw (s1 s2 : List Char) (mtch mism indel : Int) (rows cols : Nat) :
    ∀ i j, i ≤ rows - 1 → j ≤ cols - 1 →
      fill_matrix zeroMat rows cols s1 s2 mtch mism indel i j =
        nwCell s1 s2 mtch mism indel i j := by
  intro i j hi hj
  have hB0 : ∀ j, j ≤ cols - 1 →
      rowInit indel (colInit indel zeroMat (rows - 1)) (cols - 1) 0 j =
        nwCell s1 s2 mtch mism indel 0 j := by
    intro j hj
    rw [rowInit_get, nwCell_row]
    by_cases hj0 : j = 0
    · subst hj0
      rw [if_neg (by omega), colInit_get, if_neg (by omega)]
      simp [zeroMat]
    · rw [if_pos (by omega), colInit_get, if_neg (by omega)]
      simp [zeroMat]
  have hBc : ∀ i, i ≤ rows - 1 →
      rowInit indel (colInit indel zeroMat (rows - 1)) (cols - 1) i 0 =
        nwCell s1 s2 mtch mism indel i 0 := by
    intro i hi
    rw [rowInit_get, nwCell_col, if_neg (by omega), colInit_get]
    by_cases hi0 : i = 0
    · subst hi0
      rw [if_neg (by omega)]
      simp [zeroMat]
    · rw [if_pos (by omega)]
      simp [zeroMat]
  exact (mainFill_correct s1 s2 mtch mism indel _ (rows - 1) (cols - 1) hB0 hBc
    (rows - 1) (le_refl _)).1 i j hi hj


theorem traceGo_some (M : Mat) (s1 s2 : List Char) :
    ∀ fuel i j, i + j ≤ fuel → i ≤ s2.length → j ≤ s1.length →
      ∃ a1 a2, traceGo M s1 s2 fuel i j = some (a1, a2) ∧
        a1.length = a2.length ∧ i ≤ a1.length ∧ j ≤ a1.length := by
  intro fuel
  induction fuel with
  | zero =>
    intro i j hf _ _
    have hi0 : i = 0 := by omega
    have hj0 : j = 0 := by omega
    subst hi0; subst hj0
    exact ⟨[], [], rfl, rfl, by omega, by omega⟩
  | succ fuel ih =>
    intro i j hf hi hj
    rcases i with _ | i <;> rcases j with _ | j
    · exact ⟨[], [], rfl, rfl, by omega, by omega⟩
    · have hj' : j < s1.length := by omega
      obtain ⟨a1, a2, hgo, hlen, hi', hj''⟩ := ih 0 j (by omega) (by omega) (by omega)
      refine ⟨a1 ++ [s1[j]], a2 ++ ['-'], ?_, by simp [hlen], by omega, ?_⟩
      · simp only [traceGo, List.getElem?_eq_getElem hj', hgo]
      · simp only [List.length_append, List.length_cons, List.length_nil]
        omega
    · have hi' : i < s2.length := by omega
      obtain ⟨a1, a2, hgo, hlen, hi'', hj'⟩ := ih i 0 (by omega) (by omega) (by omega)
      refine ⟨a1 ++ ['-'], a2 ++ [s2[i]], ?_, by simp [hlen], ?_, by omega⟩
      · simp only [traceGo, List.getElem?_eq_getElem hi', hgo]
      · simp only [List.length_append, List.length_cons, List.length_nil]
        omega
    · have hi' : i < s2.length := by omega
      have hj' : j < s1.length := by omega
      by_cases h1 : M (i + 1) (j + 1) = M i j + 1 ∨ M (i + 1) (j + 1) = M i j - 1
      · obtain ⟨a1, a2, hgo, hlen, hi'', hj''⟩ := ih i j (by omega) (by omega) (by omega)
        refine ⟨a1 ++ [s1[j]], a2 ++ [s2[i]], ?_, by simp [hlen], ?_, ?_⟩
        · simp only [traceGo, List.getElem?_eq_getElem hj', List.getElem?_eq_getElem hi',
            hgo, if_pos h1]
        · simp only [List.length_append, List.length_cons, List.length_nil]
          omega
        · simp only [List.length_append, List.length_cons, List.length_nil]
          omega
      · by_cases h2 : M (i + 1) (j + 1) = M (i + 1) j - 1
        · obtain ⟨a1, a2, hgo, hlen, hi'', hj''⟩ := ih (i + 1) j (by omega) (by omega) (by omega)
          refine ⟨a1 ++ [s1[j]], a2 ++ ['-'], ?_, by simp [hlen], ?_, ?_⟩
          · simp only [traceGo, List.getElem?_eq_getElem hj', hgo, if_neg h1, if_pos h2]
          · simp only [List.length_append, List.length_cons, List.length_nil]
            omega
          · simp only [List.length_append, List.length_cons, List.length_nil]
            omega
        · obtain ⟨a1, a2, hgo, hlen, hi'', hj''⟩ := ih i (j + 1) (by omega) (by omega) (by omega)
          refine ⟨a1 ++ ['-'], a2 ++ [s2[i]], ?_, by simp [hlen], ?_, ?_⟩
          · simp only [traceGo, List.getElem?_eq_getElem hi', hgo, if_neg h1, if_neg h2]
          · simp only [List.length_append, List.length_cons, List.length_nil]
            omega
          · simp only [List.length_append, List.length_cons, List.length_nil]
            omega

theorem stripGaps_append (l1 l2 : List Char) :
    stripGaps (l1 ++ l2) = stripGaps l1 ++ stripGaps l2 := by
  simp [stripGaps]

theorem stripGaps_singleton_ne (c : Char) (h : c ≠ '-') : stripGaps [c] = [c] := by
  simp [stripGaps, h]

theorem stripGaps_gap : stripGaps ['-'] = [] := rfl

theorem take_concat_getElem (l : List Char) (j : Nat) (h : j < l.length) :
    l.take (j + 1) = l.take j ++ [l[j]] := by
  rw [List.take_succ, List.getElem?_eq_getElem h]
  rfl

theorem traceGo_strip (M : Mat) (s1 s2 : List Char) (g1 : '-' ∉ s1) (g2 : '-' ∉ s2) :
    ∀ fuel i j a1 a2, i + j ≤ fuel → i ≤ s2.length → j ≤ s1.length →
      traceGo M s1 s2 fuel i j = some (a1, a2) →
      stripGaps a1 = s1.take j ∧ stripGaps a2 = s2.take i ∧
      a1.length = a2.length ∧
      ∀ p ∈ a1.zip a2, ¬(p.1 = '-' ∧ p.2 = '-') := by
  intro fuel
  induction fuel with
  | zero =>
    intro i j a1 a2 hf hi hj hgo
    have hi0 : i = 0 := by omega
    have hj0 : j = 0 := by omega
    subst hi0; subst hj0
    simp only [traceGo, Option.some.injEq, Prod.mk.injEq] at hgo
    obtain ⟨h1, h2⟩ := hgo
    subst h1; subst h2
    exact ⟨rfl, rfl, rfl, by simp⟩
  | succ fuel ih =>
    intro i j a1 a2 hf hi hj hgo
    rcases i with _ | i <;> rcases j with _ | j
    · simp only [traceGo, Option.some.injEq, Prod.mk.injEq] at hgo
      obtain ⟨h1, h2⟩ := hgo
      subst h1; subst h2
      exact ⟨rfl, rfl, rfl, by simp⟩
    · have hj' : j < s1.length := by omega
      rcases hrec : traceGo M s1 s2 fuel 0 j with _ | ⟨b1, b2⟩
      · simp only [traceGo, List.getElem?_eq_getElem hj', hrec] at hgo
        exact Option.noConfusion hgo
      · simp only [traceGo, List.getElem?_eq_getElem hj', hrec, Option.some.injEq,
          Prod.mk.injEq] at hgo
        obtain ⟨h1, h2⟩ := hgo
        subst h1; subst h2
        obtain ⟨hs1, hs2, hlen, hzip⟩ := ih 0 j b1 b2 (by omega) (by omega) (by omega) hrec
        have hc : s1[j] ≠ '-' := fun hcc => g1 (hcc ▸ List.getElem_mem hj')
        refine ⟨?_, ?_, ?_, ?_⟩
        · rw [stripGaps_append, stripGaps_singleton_ne _ hc, hs1, take_concat_getElem _ _ hj']
        · rw [stripGaps_append, stripGaps_gap, hs2, List.append_nil]
        · simp [hlen]
        · intro p hp
          rw [List.zip_append hlen] at hp
          rcases List.mem_append.1 hp with hp | hp
          · exact hzip p hp
          · have : p = (s1[j], '-') := by simpa using hp
            subst this
            simp only [not_and]
            intro hcc
            exact absurd hcc hc
    · have hi' : i < s2.length := by omega
      rcases hrec : traceGo M s1 s2 fuel i 0 with _ | ⟨b1, b2⟩
      · simp only [traceGo, List.getElem?_eq_getElem hi', hrec] at hgo
        exact Option.noConfusion hgo
      · simp only [traceGo, List.getElem?_eq_getElem hi', hrec, Option.some.injEq,
          Prod.mk.injEq] at hgo
        obtain ⟨h1, h2⟩ := hgo
        subst h1; subst h2
        obtain ⟨hs1, hs2, hlen, hzip⟩ := ih i 0 b1 b2 (by omega) (by omega) (by omega) hrec
        have hc : s2[i] ≠ '-' := fun hcc => g2 (hcc ▸ List.getElem_mem hi')
        refine ⟨?_, ?_, ?_, ?_⟩
        · rw [stripGaps_append, stripGaps_gap, hs1, List.append_nil]
        · rw [stripGaps_append, stripGaps_singleton_ne _ hc, hs2, take_concat_getElem _ _ hi']
        · simp [hlen]
        · intro p hp
          rw [List.zip_append hlen] at hp
          rcases List.mem_append.1 hp with hp | hp
          · exact hzip p hp
          · have : p = ('-', s2[i]) := by simpa using hp
            subst this
            simp only [not_and]
            intro _ hcc
            exact absurd hcc hc
    · have hi' : i < s2.length := by omega
      have hj' : j < s1.length := by omega
      have hc1 : s1[j] ≠ '-' := fun hcc => g1 (hcc ▸ List.getElem_mem hj')
      have hc2 : s2[i] ≠ '-' := fun hcc => g2 (hcc ▸ List.getElem_mem hi')
      by_cases h1 : M (i + 1) (j + 1) = M i j + 1 ∨ M (i + 1) (j + 1) = M i j - 1
      · rcases hrec : traceGo M s1 s2 fuel i j with _ | ⟨b1, b2⟩
        · simp only [traceGo, List.getElem?_eq_getElem hj', List.getElem?_eq_getElem hi',
            hrec, if_pos h1] at hgo
          exact Option.noConfusion hgo
        · simp only [traceGo, List.getElem?_eq_getElem hj', List.getElem?_eq_getElem hi',
            hrec, if_pos h1, Option.some.injEq, Prod.mk.injEq] at hgo
          obtain ⟨ha1, ha2⟩ := hgo
          subst ha1; subst ha2
          obtain ⟨hs1, hs2, hlen, hzip⟩ := ih i j b1 b2 (by omega) (by omega) (by omega) hrec
          refine ⟨?_, ?_, ?_, ?_⟩
          · rw [stripGaps_append, stripGaps_singleton_ne _ hc1, hs1, take_concat_getElem _ _ hj']
          · rw [stripGaps_append, stripGaps_singleton_ne _ hc2, hs2, take_concat_getElem _ _ hi']
          · simp [hlen]
          · intro p hp
            rw [List.zip_append hlen] at hp
            rcases List.mem_append.1 hp with hp | hp
            · exact hzip p hp
            · have : p = (s1[j], s2[i]) := by simpa using hp
              subst this
              simp only [not_and]
              intro hcc
              exact absurd hcc hc1
      · by_cases h2 : M (i + 1) (j + 1) = M (i + 1) j - 1
        · rcases hrec : traceGo M s1 s2 fuel (i + 1) j with _ | ⟨b1, b2⟩
          · simp only [traceGo, List.getElem?_eq_getElem hj', hrec, if_neg h1,
              if_pos h2] at hgo
            exact Option.noConfusion hgo
          · simp only [traceGo, List.getElem?_eq_getElem hj', hrec, if_neg h1, if_pos h2,
              Option.some.injEq, Prod.mk.injEq] at hgo
            obtain ⟨ha1, ha2⟩ := hgo
            subst ha1; subst ha2
            obtain ⟨hs1, hs2, hlen, hzip⟩ :=
              ih (i + 1) j b1 b2 (by omega) (by omega) (by omega) hrec
            refine ⟨?_, ?_, ?_, ?_⟩
            · rw [stripGaps_append, stripGaps_singleton_ne _ hc1, hs1,
                take_concat_getElem _ _ hj']
            · rw [stripGaps_append, stripGaps_gap, hs2, List.append_nil]
            · simp [hlen]
            · intro p hp
              rw [List.zip_append hlen] at hp
              rcases List.mem_append.1 hp with hp | hp
              · exact hzip p hp
              · have : p = (s1[j], '-') := by simpa using hp
                subst this
                simp only [not_and]
                intro hcc
                exact absurd hcc hc1
        · rcases hrec : traceGo M s1 s2 fuel i (j + 1) with _ | ⟨b1, b2⟩
          · simp only [traceGo, List.getElem?_eq_getElem hi', hrec, if_neg h1,
              if_neg h2] at hgo
            exact Option.noConfusion hgo
          · simp only [traceGo, List.getElem?_eq_getElem hi', hrec, if_neg h1, if_neg h2,
              Option.some.injEq, Prod.mk.injEq] at hgo
            obtain ⟨ha1, ha2⟩ := hgo
            subst ha1; subst ha2
            obtain ⟨hs1, hs2, hlen, hzip⟩ :=
              ih i (j + 1) b1 b2 (by omega) (by omega) (by omega) hrec
            refine ⟨?_, ?_, ?_, ?_⟩
            · rw [stripGaps_append, stripGaps_gap, hs1, List.append_nil]
            · rw [stripGaps_append, stripGaps_singleton_ne _ hc2, hs2,
                take_concat_getElem _ _ hi']
            · simp [hlen]
            · intro p hp
              rw [List.zip_append hlen] at hp
              rcases List.mem_append.1 hp with hp | hp
              · exact hzip p hp
              · have : p = ('-', s2[i]) := by simpa using hp
                subst this
                simp only [not_and]
                intro _ hcc
                exact absurd hcc hc2

theorem traceGo_boundary_col (M : Mat) (s1 s2 : List Char) :
    ∀ i fuel, i ≤ fuel → i ≤ s2.length →
      traceGo M s1 s2 fuel i 0 = some (List.replicate i '-', s2.take i) := by
  intro i
  induction i with
  | zero =>
    intro fuel _ _
    cases fuel <;> rfl
  | succ i ih =>
    intro fuel hf hi
    obtain ⟨f, rfl⟩ : ∃ f, fuel = f + 1 := ⟨fuel - 1, by omega⟩
    have hi' : i < s2.length := by omega
    simp only [traceGo, List.getElem?_eq_getElem hi', ih f (by omega) (by omega)]
    rw [List.replicate_succ' i '-', take_concat_getElem _ _ hi']

/-- Claim C2: on a zero-initialized matrix of shape `(m+1) × (n+1)`, the
filled matrix has `cell(0,0) = 0`, `cell(i,0) = i·indel`, `cell(0,j) = j·indel`,
and every interior cell equal to the maximum of the three predecessor-derived
scores (diagonal + match-or-mismatch, up + indel, left + indel). -/
theorem fill_matrix_satisfies_recurrence (s1 s2 : List Char) (mtch mism indel : Int)
    (rows cols : Nat) (hr : rows = s2.length + 1) (hc : cols = s1.length + 1) :
    fill_matrix zeroMat rows cols s1 s2 mtch mism indel 0 0 = 0 ∧
    (∀ i, 1 ≤ i → i ≤ s2.length →
      fill_matrix zeroMat rows cols s1 s2 mtch mism indel i 0 = i * indel) ∧
    (∀ j, 1 ≤ j → j ≤ s1.length →
      fill_matrix zeroMat rows cols s1 s2 mtch mism indel 0 j = j * indel) ∧
    (∀ i j, 1 ≤ i → i ≤ s2.length → 1 ≤ j → j ≤ s1.length →
      fill_matrix zeroMat rows cols s1 s2 mtch mism indel i j =
        max (max
          (fill_matrix zeroMat rows cols s1 s2 mtch mism indel (i - 1) (j - 1) +
            (if s2.getD (i - 1) 'X' = s1.getD (j - 1) 'X' then mtch else mism))
          (fill_matrix zeroMat rows cols s1 s2 mtch mism indel (i - 1) j + indel))
          (fill_matrix zeroMat rows cols s1 s2 mtch mism indel i (j - 1) + indel)) := by
  subst hr; subst hc
  have hb : s2.length + 1 - 1 = s2.length := by omega
  have hb' : s1.length + 1 - 1 = s1.length := by omega
  refine ⟨?_, ?_, ?_, ?_⟩
  · rw [fill_eq_nw s1 s2 mtch mism indel _ _ 0 0 (by omega) (by omega)]
    simp [nwCell]
  · intro i h1 h2
    rw [fill_eq_nw s1 s2 mtch mism indel _ _ i 0 (by omega) (by omega), nwCell_col]
  · intro j h1 h2
    rw [fill_eq_nw s1 s2 mtch mism indel _ _ 0 j (by omega) (by omega), nwCell_row]
  · intro i j hi1 hi2 hj1 hj2
    obtain ⟨i0, rfl⟩ : ∃ i0, i = i0 + 1 := ⟨i - 1, by omega⟩
    obtain ⟨j0, rfl⟩ : ∃ j0, j = j0 + 1 := ⟨j - 1, by omega⟩
    rw [fill_eq_nw s1 s2 mtch mism indel _ _ (i0 + 1) (j0 + 1) (by omega) (by omega),
      fill_eq_nw s1 s2 mtch mism indel _ _ (i0 + 1 - 1) (j0 + 1 - 1) (by omega) (by omega),
      fill_eq_nw s1 s2 mtch mism indel _ _ (i0 + 1 - 1) (j0 + 1) (by omega) (by omega),
      fill_eq_nw s1 s2 mtch mism indel _ _ (i0 + 1) (j0 + 1 - 1) (by omega) (by omega)]
    simp only [Nat.add_sub_cancel]
    by_cases hch : s2.getD i0 'X' = s1.getD j0 'X'
    · simp only [nwCell, if_pos hch]
    · simp only [nwCell, if_neg hch]

theorem fill_matrix_satisfies_recurrence_witness :
    fill_matrix zeroMat 3 2 ['A'] ['A', 'T'] 1 (-1) (-1) 2 0 = -2 := by
  have h := (fill_matrix_satisfies_recurrence ['A'] ['A', 'T'] 1 (-1) (-1) 3 2 rfl rfl).2.1
    2 (by decide) (by decide)
  norm_num at h
  exact h

/-- Claim C3: for gap-free input sequences, the aligned pair returned by the
traceback over the filled matrix strips back to exactly the two original
sequences, and no aligned position is a gap in both sequences. -/
theorem trace_matrix_roundtrip (s1 s2 : List Char) (mtch mism indel : Int)
    (g1 : '-' ∉ s1) (g2 : '-' ∉ s2) :
    ∃ a1 a2, align s1 s2 mtch mism indel = some (a1, a2) ∧
      stripGaps a1 = s1 ∧ stripGaps a2 = s2 ∧
      ∀ p ∈ a1.zip a2, ¬(p.1 = '-' ∧ p.2 = '-') := by
  obtain ⟨a1, a2, hgo, _, _, _⟩ :=
    traceGo_some (fill_matrix zeroMat (s2.length + 1) (s1.length + 1) s1 s2 mtch mism indel)
      s1 s2 (s2.length + s1.length) s2.length s1.length (le_refl _) (le_refl _) (le_refl _)
  obtain ⟨hs1, hs2, _, hzip⟩ :=
    traceGo_strip (fill_matrix zeroMat (s2.length + 1) (s1.length + 1) s1 s2 mtch mism indel)
      s1 s2 g1 g2 (s2.length + s1.length) s2.length s1.length a1 a2
      (le_refl _) (le_refl _) (le_refl _) hgo
  refine ⟨a1, a2, ?_, ?_, ?_, hzip⟩
  · simp only [align, trace_matrix, Nat.add_sub_cancel]
    exact hgo
  · rw [hs1, List.take_length]
  · rw [hs2, List.take_length]

theorem trace_matrix_roundtrip_witness :
    ('-' ∉ ['A', 'T']) ∧ ('-' ∉ ['T', 'T']) ∧
    ∃ a1 a2, align ['A', 'T'] ['T', 'T'] 1 (-1) (-1) = some (a1, a2) ∧
      stripGaps a1 = ['A', 'T'] ∧ stripGaps a2 = ['T', 'T'] ∧
      ∀ p ∈ a1.zip a2, ¬(p.1 = '-' ∧ p.2 = '-') :=
  ⟨by decide, by decide,
    trace_matrix_roundtrip ['A', 'T'] ['T', 'T'] 1 (-1) (-1) (by decide) (by decide)⟩

/-- Claim C5: the two aligned sequences returned by the traceback over the
filled matrix have equal length, and that length is at least the maximum of
the two input lengths. -/
theorem trace_matrix_lengths (s1 s2 : List Char) (mtch mism indel : Int) :
    ∃ a1 a2, align s1 s2 mtch mism indel = some (a1, a2) ∧
      a1.length = a2.length ∧ max s1.length s2.length ≤ a1.length := by
  obtain ⟨a1, a2, hgo, hlen, hi, hj⟩ :=
    traceGo_some (fill_matrix zeroMat (s2.length + 1) (s1.length + 1) s1 s2 mtch mism indel)
      s1 s2 (s2.length + s1.length) s2.length s1.length (le_refl _) (le_refl _) (le_refl _)
  refine ⟨a1, a2, ?_, hlen, ?_⟩
  · simp only [align, trace_matrix, Nat.add_sub_cancel]
    exact hgo
  · exact max_le hj hi

/-- Claim C4, counterexample: a 1×1 matrix handed to the traceback with two
length-1 sequences is a dimension mismatch (1 ≠ length + 1 on both axes), yet
`trace_matrix` raises no error and returns an (empty) alignment, silently
ignoring both sequences. -/
theorem trace_matrix_dim_mismatch_not_rejected :
    (1 : Nat) ≠ List.length ['A'] + 1 ∧
    trace_matrix zeroMat 1 1 ['A'] ['A'] = some ([], []) := by
  constructor
  · decide
  · rfl

/-- Claim C4, amended: `trace_matrix` has no dimension check at all.  As long
as each sequence is at least as long as the matrix dimensions require — in
particular whenever it is strictly longer, a shape mismatch — the traceback
silently produces an alignment from a prefix of the sequences instead of
rejecting the input. -/
theorem trace_matrix_no_dimension_check (M : Mat) (rows cols : Nat) (s1 s2 : List Char)
    (h2 : rows - 1 ≤ s2.length) (h1 : cols - 1 ≤ s1.length) :
    ∃ pr, trace_matrix M rows cols s1 s2 = some pr := by
  obtain ⟨a1, a2, hgo, _, _, _⟩ :=
    traceGo_some M s1 s2 ((rows - 1) + (cols - 1)) (rows - 1) (cols - 1)
      (le_refl _) h2 h1
  exact ⟨(a1, a2), hgo⟩

theorem trace_matrix_no_dimension_check_witness :
    ∃ pr, trace_matrix zeroMat 2 1 ['B'] ['A', 'C'] = some pr :=
  trace_matrix_no_dimension_check zeroMat 2 1 ['B'] ['A', 'C'] (by decide) (by decide)

/-- Claim C8: aligning the empty `sequence1` against `"ABC"` with scores
`(1, -1, -1)` yields `("---", "ABC")` and boundary cell `(3,0)` equal to `-3`;
in general an empty `sequence1` is no error and produces an all-gap first row
against the full second sequence. -/
theorem align_empty_sequence :
    align [] ['A', 'B', 'C'] 1 (-1) (-1) = some (['-', '-', '-'], ['A', 'B', 'C']) ∧
    fill_matrix zeroMat 4 1 [] ['A', 'B', 'C'] 1 (-1) (-1) 3 0 = -3 ∧
    ∀ s2 : List Char, align [] s2 1 (-1) (-1) = some (List.replicate s2.length '-', s2) := by
  refine ⟨by decide, by decide, ?_⟩
  intro s2
  simp only [align, trace_matrix, Nat.add_sub_cancel, List.length_nil, Nat.add_zero]
  rw [traceGo_boundary_col _ _ _ s2.length s2.length (le_refl _) (le_refl _),
    List.take_length]

/-- Claim C1 (recording the code bug): with `match = 2`, `mismatch = -1`,
`indel = -1` and both sequences `"A"`, the filled matrix has
`cell(1,1) = cell(0,0) + match`, so the claimed selection rule takes the
diagonal move and would return `("A", "A")`; the code instead compares
`current` against the hard-coded `diag ± 1` and `left - 1`, finds no
candidate, falls through to the up move and returns `("A-", "-A")`. -/
theorem trace_matrix_hardcoded_scores_bug :
    fill_matrix zeroMat 2 2 ['A'] ['A'] 2 (-1) (-1) 1 1 =
      fill_matrix zeroMat 2 2 ['A'] ['A'] 2 (-1) (-1) 0 0 + 2 ∧
    align ['A'] ['A'] 2 (-1) (-1) = some (['A', '-'], ['-', 'A']) := by
  constructor
  · decide
  · rfl

/-- Claim C9: the traceback loop terminates — starting from any cursor with
nonnegative coordinates, the loop guard fails exactly at `(0, 0)`, and every
executed iteration keeps the coordinates nonnegative and strictly decreases
`i + j`. -/
theorem traceStep_terminates (M : Int → Int → Int) (s1 s2 : List Char)
    (st : TraceState) (hi : 0 ≤ st.i) (hj : 0 ≤ st.j) :
    (traceStep M s1 s2 st = none ↔ st.i = 0 ∧ st.j = 0) ∧
    ∀ st', traceStep M s1 s2 st = some st' →
      0 ≤ st'.i ∧ 0 ≤ st'.j ∧ st'.i + st'.j < st.i + st.j := by
  constructor
  · constructor
    · intro h
      by_contra hne
      have hg : st.i > 0 ∨ st.j > 0 := by omega
      unfold traceStep at h
      rw [if_pos hg] at h
      split_ifs at h
    · intro ⟨h1, h2⟩
      unfold traceStep
      rw [if_neg (by omega)]
  · intro st' h
    unfold traceStep at h
    split_ifs at h with hg hI hJ hd hl <;>
      (rw [Option.some.injEq] at h; subst h; dsimp only; omega)

theorem traceStep_terminates_witness :
    traceStep (fun _ _ => 0) ['A'] ['A'] ⟨1, 1, [], []⟩ = none ↔
      (1 : Int) = 0 ∧ (1 : Int) = 0 :=
  (traceStep_terminates (fun _ _ => 0) ['A'] ['A'] ⟨1, 1, [], []⟩
    (by decide) (by decide)).1

theorem compare_fold_counts (l : List (Char × Char)) :
    ∀ c0 m0 : Nat, l.foldl compareStep (c0, m0) =
      (c0 + l.countP (fun p => p.1 != '-' && p.2 != '-'),
       m0 + l.countP (fun p => p.1 != '-' && p.2 != '-' && p.1 != p.2)) := by
  induction l with
  | nil =>
    intro c0 m0
    simp
  | cons p l ih =>
    intro c0 m0
    rw [List.foldl_cons, List.countP_cons, List.countP_cons, compareStep]
    by_cases h1 : p.1 = '-' ∨ p.2 = '-'
    · have hp : (p.1 != '-' && p.2 != '-') = false := by
        rcases h1 with h | h <;> simp [h]
      rw [if_pos h1, ih]
      simp [hp]
    · push_neg at h1
      obtain ⟨ha, hb⟩ := h1
      have hp : (p.1 != '-' && p.2 != '-') = true := by simp [ha, hb]
      rw [if_neg (by tauto), ih]
      by_cases h2 : p.1 = p.2
      · simp [Prod.ext_iff, h2, hb]
        omega
      · have hp2 : (p.1 != p.2) = true := by simp [h2]
        simp only [hp, hp2, Bool.true_and, if_pos h2]
        simp [Prod.ext_iff, h2]
        omega

theorem compareOne_eq (seq ref : List Char) :
    compareOne seq ref =
      (seq.length, comparedSites seq ref, mismatchSites seq ref,
        if comparedSites seq ref = 0 then 0
        else round6 (mismatchSites seq ref) (comparedSites seq ref)) := by
  rw [compareOne, compare_fold_counts]
  simp only [comparedSites, mismatchSites, Nat.zero_add]

theorem compare_to_reference_eq (seqs : List (String × List Char)) (rid : String)
    (ref : List Char) (h : seqs.lookup rid = some ref) :
    compare_to_reference seqs rid =
      some (seqs.map (fun p => (p.1,
        (p.2.length, comparedSites p.2 ref, mismatchSites p.2 ref,
          if comparedSites p.2 ref = 0 then 0
          else round6 (mismatchSites p.2 ref) (comparedSites p.2 ref))))) := by
  rw [compare_to_reference, h]
  simp only [Option.some.injEq]
  exact List.map_congr_left (fun p _ => by rw [compareOne_eq])

theorem lookup_none_iff_not_key (seqs : List (String × List Char)) (rid : String) :
    seqs.lookup rid = none ↔ rid ∉ seqs.map Prod.fst := by
  induction seqs with
  | nil => simp
  | cons p l ih =>
    obtain ⟨k, v⟩ := p
    by_cases hk : rid = k
    · subst hk
      simp [List.lookup]
    · have hbeq : (rid == k) = false := by simp [hk]
      simp only [List.lookup, hbeq, List.map_cons, List.mem_cons, not_or, ih]
      constructor
      · intro h
        exact ⟨hk, h⟩
      · intro h
        exact h.2

/-- Claim C6: for every mapping that contains the reference id, the comparator
returns for every entry its full length, the number of compared sites
(positions where neither side is a gap), the number of mismatches among them,
and the mutation rate `mismatches / compared_sites` rounded to six decimal
digits (`0.0` when no site is compared); on
`{"Ref": "ATGC", "S1": "AT-T"}` with reference `"Ref"`, entry `S1` yields
length 4, 3 compared sites, 1 mismatch and mutation rate `0.333333`
(`333333 / 1000000`). -/
theorem compare_to_reference_correct :
    (∀ (seqs : List (String × List Char)) (rid : String) (ref : List Char),
      seqs.lookup rid = some ref →
      compare_to_reference seqs rid =
        some (seqs.map (fun p => (p.1,
          (p.2.length, comparedSites p.2 ref, mismatchSites p.2 ref,
            if comparedSites p.2 ref = 0 then 0
            else round6 (mismatchSites p.2 ref) (comparedSites p.2 ref)))))) ∧
    compare_to_reference [("Ref", ['A', 'T', 'G', 'C']), ("S1", ['A', 'T', '-', 'T'])]
        "Ref" =
      some [("Ref", (4, 4, 0, 0)), ("S1", (4, 3, 1, mkRat 333333 1000000))] := by
  constructor
  · intro seqs rid ref h
    exact compare_to_reference_eq seqs rid ref h
  · decide

theorem compare_to_reference_correct_witness :
    compare_to_reference [("R", ['A', 'C'])] "R" =
      some [("R", (['A', 'C'].length, comparedSites ['A', 'C'] ['A', 'C'],
        mismatchSites ['A', 'C'] ['A', 'C'],
        if comparedSites ['A', 'C'] ['A', 'C'] = 0 then 0
        else round6 (mismatchSites ['A', 'C'] ['A', 'C'])
          (comparedSites ['A', 'C'] ['A', 'C'])))] :=
  compare_to_reference_correct.1 [("R", ['A', 'C'])] "R" ['A', 'C'] rfl

/-- Claim C7: the comparator fails with a lookup error exactly when the
reference identifier is not a key of the mapping; the check happens before
any entry is processed, so a failing run returns no per-entry results. -/
theorem compare_to_reference_keyerror (seqs : List (String × List Char)) (rid : String) :
    compare_to_reference seqs rid = none ↔ rid ∉ seqs.map Prod.fst := by
  rw [← lookup_none_iff_not_key]
  rw [compare_to_reference]
  cases h : seqs.lookup rid <;> simp

/-- Claim C10: the comparator does not require equal-length sequences — an
entry is compared only over positions up to the shorter of its and the
reference's length (`zip` truncation), its reported length is its own full
length, and no error is raised. -/
theorem compare_to_reference_unequal_lengths (seqs : List (String × List Char))
    (rid : String) (ref : List Char) (h : seqs.lookup rid = some ref)
    (sid : String) (s : List Char) (hmem : (sid, s) ∈ seqs) :
    ∃ res, compare_to_reference seqs rid = some res ∧
      (sid, (s.length, comparedSites s ref, mismatchSites s ref,
        if comparedSites s ref = 0 then 0
        else round6 (mismatchSites s ref) (comparedSites s ref))) ∈ res ∧
      comparedSites s ref ≤ min s.length ref.length := by
  refine ⟨_, compare_to_reference_eq seqs rid ref h, ?_, ?_⟩
  · exact List.mem_map_of_mem _ hmem
  · calc comparedSites s ref ≤ (s.zip ref).length := List.countP_le_length _
    _ = min s.length ref.length := List.length_zip s ref

theorem compare_to_reference_unequal_lengths_witness :
    ∃ res, compare_to_reference [("R", ['A', 'T']), ("S", ['A', 'T', 'G', 'C'])] "R" =
        some res ∧
      ("S", (['A', 'T', 'G', 'C'].length, comparedSites ['A', 'T', 'G', 'C'] ['A', 'T'],
        mismatchSites ['A', 'T', 'G', 'C'] ['A', 'T'],
        if comparedSites ['A', 'T', 'G', 'C'] ['A', 'T'] = 0 then 0
        else round6 (mismatchSites ['A', 'T', 'G', 'C'] ['A', 'T'])
          (comparedSites ['A', 'T', 'G', 'C'] ['A', 'T']))) ∈ res ∧
      comparedSites ['A', 'T', 'G', 'C'] ['A', 'T'] ≤
        min ['A', 'T', 'G', 'C'].length ['A', 'T'].length :=
  compare_to_reference_unequal_lengths [("R", ['A', 'T']), ("S", ['A', 'T', 'G', 'C'])]
    "R" ['A', 'T'] rfl ("S") ['A', 'T', 'G', 'C'] (by decide)
